import Mathlib

/-!
Verification of `src/01/solution_2.py` (Advent of Code 2018, day 1 part 2).

The Python source (after its `itertools` import):

  def find_repeated_frequency():
      sum = 0
      seen = set()
      for n in itertools.cycle(map(int, open('input'))):
          if sum in seen:
              return sum
          seen.add(sum)
          sum += n
  print(find_repeated_frequency())

We embed the accumulation loop over an already-parsed list of integers
(`loopRun` / `find_repeated_frequency`), and separately the full pipeline
including lazy line-by-line parsing (`pyLoop` / `pyProgram`), since
`map(int, open('input'))` parses each line only when the cycle first draws it.

The loop may not terminate, so the embedding is fuel-indexed:
`none` means the fuel ran out (the loop is still running), `some none` means
the Python function fell through the `for` (empty input) and returned `None`,
and `some (some v)` means it executed `return sum` with `sum = v`.
-/

namespace Day1Part2

/-- The `i`-th element (0-based) drawn by `itertools.cycle` over `l`:
index `i % l.length` of the underlying list. -/
def cyc (l : List Int) (i : Nat) : Int := l.getD (i % l.length) 0

/-- The cyclic cumulative sum after `k` additions: `csum l 0 = 0` and each
step adds the next cyclically drawn element, exactly as `sum += n` does. -/
def csum (l : List Int) : Nat → Int
  | 0 => 0
  | k + 1 => csum l k + cyc l k

/-- The set of cumulative sums produced strictly before step `k`; the Python
`seen` set at the start of iteration `k` (when no repeat occurred earlier). -/
def seenSet (l : List Int) (k : Nat) : Finset Int :=
  (Finset.range k).image (csum l)

/-- The cumulative sum at step `k` already occurred at an earlier step. -/
def repeatAt (l : List Int) (k : Nat) : Prop :=
  ∃ j < k, csum l j = csum l k

instance (l : List Int) (k : Nat) : Decidable (repeatAt l k) :=
  decidable_of_iff ((List.range k).any (fun j => csum l j == csum l k) = true)
    (by simp [repeatAt, List.any_eq_true, List.mem_range, beq_iff_eq])

/-- One-to-one embedding of the Python loop body, indexed by fuel.
State: `s` is `sum`, `seen` is the set, `i` counts how many elements the
cycle has drawn so far.  On an empty list the cycle yields nothing, the
`for` body never runs, and the function returns Python `None` (`some none`). -/
def loopRun (l : List Int) : Int → Finset Int → Nat → Nat → Option (Option Int)
  | _, _, _, 0 => none
  | s, seen, i, fuel + 1 =>
    if l = [] then some none
    else if s ∈ seen then some (some s)
    else loopRun l (s + cyc l i) (insert s seen) (i + 1) fuel

/-- `find_repeated_frequency`, given the parsed input list and fuel. -/
def find_repeated_frequency (l : List Int) (fuel : Nat) : Option (Option Int) :=
  loopRun l 0 ∅ 0 fuel

/-! ### Invariant lemmas about the loop -/

lemma mem_seenSet (l : List Int) (k : Nat) (a : Int) :
    a ∈ seenSet l k ↔ ∃ j < k, csum l j = a := by
  simp [seenSet, Finset.mem_image, Finset.mem_range]

lemma csum_mem_seenSet_iff (l : List Int) (k : Nat) :
    csum l k ∈ seenSet l k ↔ repeatAt l k := by
  simp [mem_seenSet, repeatAt]

lemma seenSet_succ (l : List Int) (k : Nat) :
    seenSet l (k + 1) = insert (csum l k) (seenSet l k) := by
  simp [seenSet, Finset.range_succ, Finset.image_insert]

lemma seenSet_zero (l : List Int) : seenSet l 0 = ∅ := by
  simp [seenSet]

lemma seenSet_mono (l : List Int) (k : Nat) :
    seenSet l k ⊆ seenSet l (k + 1) := by
  rw [seenSet_succ]
  exact Finset.subset_insert _ _

/-- One loop iteration from the canonical state at step `k`, when no repeat
is detected there: the state advances to the canonical state at step `k+1`. -/
lemma loopRun_step (l : List Int) (hne : l ≠ []) (k fuel : Nat)
    (h : ¬ repeatAt l k) :
    loopRun l (csum l k) (seenSet l k) k (fuel + 1)
      = loopRun l (csum l (k + 1)) (seenSet l (k + 1)) (k + 1) fuel := by
  rw [loopRun, if_neg hne, if_neg (fun hm => h ((csum_mem_seenSet_iff l k).1 hm))]
  rw [seenSet_succ]
  rfl

/-- If the repeat is detected at step `k`, the loop returns `csum l k` there. -/
lemma loopRun_found (l : List Int) (hne : l ≠ []) (k fuel : Nat)
    (h : repeatAt l k) :
    loopRun l (csum l k) (seenSet l k) k (fuel + 1) = some (some (csum l k)) := by
  rw [loopRun, if_neg hne, if_pos ((csum_mem_seenSet_iff l k).2 h)]

/-- Running from the start is the same as running from the canonical state at
step `k`, provided no repeat occurs before step `k`. -/
lemma loopRun_shift (l : List Int) (hne : l ≠ []) (k : Nat)
    (h : ∀ j < k, ¬ repeatAt l j) (fuel : Nat) :
    loopRun l 0 ∅ 0 (k + fuel) = loopRun l (csum l k) (seenSet l k) k fuel := by
  induction k generalizing fuel with
  | zero => rw [seenSet_zero, Nat.zero_add]; rfl
  | succ k ih =>
    have hk : ∀ j < k, ¬ repeatAt l j := fun j hj => h j (Nat.lt_succ_of_lt hj)
    have h1 : k + 1 + fuel = k + (fuel + 1) := by omega
    rw [h1, ih hk (fuel + 1), loopRun_step l hne k fuel (h k (Nat.lt_succ_self k))]

/-- Main correctness lemma: if `r` is the first index whose cumulative sum
already occurred, then with fuel `> r` the function returns `csum l r`. -/
lemma find_first (l : List Int) (r fuel : Nat) (hne : l ≠ [])
    (hrep : repeatAt l r) (hmin : ∀ j < r, ¬ repeatAt l j) (hfuel : r < fuel) :
    find_repeated_frequency l fuel = some (some (csum l r)) := by
  obtain ⟨m, hm⟩ : ∃ m, fuel = r + (m + 1) :=
    ⟨fuel - r - 1, by omega⟩
  rw [find_repeated_frequency, hm, loopRun_shift l hne r hmin (m + 1),
    loopRun_found l hne r m hrep]

/-- More fuel cannot change a result that was already produced. -/
lemma loopRun_mono (l : List Int) :
    ∀ fuel fuel' (s : Int) (seen : Finset Int) (i : Nat) (r : Option Int),
      fuel ≤ fuel' → loopRun l s seen i fuel = some r →
      loopRun l s seen i fuel' = some r := by
  intro fuel
  induction fuel with
  | zero => intro fuel' s seen i r _ h; simp [loopRun] at h
  | succ fuel ih =>
    intro fuel' s seen i r hle h
    obtain ⟨fuel'', rfl⟩ : ∃ f, fuel' = f + 1 :=
      ⟨fuel' - 1, by omega⟩
    rw [loopRun] at h ⊢
    by_cases hl : l = []
    · rwa [if_pos hl] at h ⊢
    · rw [if_neg hl] at h ⊢
      by_cases hs : s ∈ seen
      · rwa [if_pos hs] at h ⊢
      · rw [if_neg hs] at h ⊢
        exact ih fuel'' _ _ _ _ (by omega) h

/-- Unfolding equation for one iteration, convenient for rewriting. -/
lemma loopRun_succ (l : List Int) (s : Int) (seen : Finset Int) (i fuel : Nat) :
    loopRun l s seen i (fuel + 1)
      = if l = [] then some none
        else if s ∈ seen then some (some s)
        else loopRun l (s + cyc l i) (insert s seen) (i + 1) fuel := rfl

/-! ### Prefix lemmas: the first pass over `l.take k` agrees with `l` -/

lemma cyc_take (l : List Int) (k j : Nat) (hj : j < k) (hkl : k ≤ l.length) :
    cyc (l.take k) j = cyc l j := by
  have hlen : (l.take k).length = k := by
    rw [List.length_take]; omega
  have hjl : j < l.length := lt_of_lt_of_le hj hkl
  have hjt : j < (l.take k).length := by omega
  unfold cyc
  rw [hlen, Nat.mod_eq_of_lt hj, Nat.mod_eq_of_lt hjl,
    List.getD_eq_getElem _ _ hjt, List.getD_eq_getElem _ _ hjl,
    List.getElem_take]

lemma csum_take (l : List Int) (k : Nat) (hkl : k ≤ l.length) :
    ∀ j, j ≤ k → csum (l.take k) j = csum l j := by
  intro j
  induction j with
  | zero => intro _; rfl
  | succ j ih =>
    intro hj
    rw [csum, csum, ih (by omega), cyc_take l k j (by omega) hkl]

lemma repeatAt_take (l : List Int) (k j : Nat) (hkl : k ≤ l.length)
    (hj : j ≤ k) : repeatAt (l.take k) j ↔ repeatAt l j := by
  unfold repeatAt
  constructor
  · rintro ⟨i, hi, he⟩
    exact ⟨i, hi, by
      rw [← csum_take l k hkl i (by omega), ← csum_take l k hkl j hj]; exact he⟩
  · rintro ⟨i, hi, he⟩
    exact ⟨i, hi, by
      rw [csum_take l k hkl i (by omega), csum_take l k hkl j hj]; exact he⟩

/-! ### A divergent input: `[1]` (cumulative sums `0, 1, 2, …` never repeat) -/

lemma csum_one (k : Nat) : csum [1] k = (k : Int) := by
  induction k with
  | zero => rfl
  | succ k ih =>
    rw [csum, ih]
    have : cyc [1] k = 1 := by
      unfold cyc
      simp [Nat.mod_one]
    rw [this]
    push_cast
    ring

lemma no_repeat_one (k : Nat) : ¬ repeatAt [1] k := by
  rintro ⟨j, hj, he⟩
  rw [csum_one, csum_one] at he
  omega

lemma find_one_none (fuel : Nat) : find_repeated_frequency [1] fuel = none := by
  have h := loopRun_shift [1] (by simp) fuel (fun j _ => no_repeat_one j) 0
  rw [Nat.add_zero] at h
  rw [find_repeated_frequency, h, loopRun]

/-! ### The full pipeline: lazy parsing of lines, as `map(int, open('input'))`

`map(int, ...)` is a lazy iterator, so `int` runs on a line only when the
cycle first draws it; a malformed line beyond the drawn prefix never raises. -/

/-- Errors the Python process can die with: `OSError` from `open`, or
`ValueError` from `int`. -/
inductive PyError where
  | ioError
  | valueError
deriving DecidableEq

/-- The characters `str.strip()` / `int()` treat as whitespace. -/
def isPySpace (c : Char) : Bool :=
  c = ' ' || c = '\t' || c = '\n' || c = '\r' || c = '\x0b' || c = '\x0c'

/-- Strip whitespace from both ends, as `int` does before parsing. -/
def pyStripChars (cs : List Char) : List Char :=
  ((cs.dropWhile isPySpace).reverse.dropWhile isPySpace).reverse

/-- Parse the remaining characters of a decimal literal whose digits so far
denote `acc`; an underscore is allowed only between two digits (Python 3.6+). -/
def digitsCore : Nat → List Char → Option Nat
  | acc, [] => some acc
  | acc, c :: cs =>
    if c = '_' then
      match cs with
      | [] => none
      | c2 :: cs2 =>
        if c2.isDigit then digitsCore (acc * 10 + (c2.toNat - 48)) cs2 else none
    else if c.isDigit then digitsCore (acc * 10 + (c.toNat - 48)) cs else none

/-- Parse a nonempty digit string (underscores between digits allowed). -/
def digitsVal : List Char → Option Nat
  | [] => none
  | c :: cs => if c.isDigit then digitsCore (c.toNat - 48) cs else none

/-- Parse an optional `+`/`-` sign followed by a nonempty digit string. -/
def pySigned : List Char → Option Int
  | [] => none
  | c :: cs =>
    if c = '+' then (digitsVal cs).map (fun n => (n : Int))
    else if c = '-' then (digitsVal cs).map (fun n => -(n : Int))
    else (digitsVal (c :: cs)).map (fun n => (n : Int))

/-- Python's `int(s)` on the characters of a text line: optional surrounding
whitespace, an optional `+`/`-` sign, then a nonempty digit string.  `none`
where `int` raises `ValueError`. -/
def pyIntChars (cs0 : List Char) : Option Int := pySigned (pyStripChars cs0)

/-- Python's `int(s)` for a text line. -/
def pyInt (s : String) : Option Int := pyIntChars s.data

/-- `print`'s rendering of the function's result (`None` for the implicit
return on empty input). -/
def pyShow : Option Int → String
  | none => "None"
  | some v => toString v

/-- The loop over `itertools.cycle(map(int, open('input')))`: each draw
parses the line it reads.  (A line that fails to parse on a later cyclic
pass would already have failed the first time it was drawn, so parsing at
every draw is behaviourally identical to Python's parse-once-then-cache.)
`ValueError` from `int` fires at the draw, before the membership check. -/
def pyLoop (lines : List String) :
    Int → Finset Int → Nat → Nat → Option (Except PyError (Option Int))
  | _, _, _, 0 => none
  | s, seen, i, fuel + 1 =>
    if lines = [] then some (.ok none)
    else
      match pyInt (lines.getD (i % lines.length) "") with
      | none => some (.error .valueError)
      | some n =>
        if s ∈ seen then some (.ok (some s))
        else pyLoop lines (s + n) (insert s seen) (i + 1) fuel

/-- The whole script: `print(find_repeated_frequency())`.  `inp = none`
models an unreadable input file (`open` raises).  The result is the line
printed to stdout, or the error that aborted the process, or `none` when
the given fuel did not suffice (the loop is still running). -/
def pyProgram (fuel : Nat) (inp : Option (List String)) :
    Option (Except PyError String) :=
  match inp with
  | none => some (.error .ioError)
  | some lines => (pyLoop lines 0 ∅ 0 fuel).map (fun r => r.map pyShow)

/-! ### Lemmas about parsing and the pipeline -/

lemma digit_not_space (c : Char) (h : c.isDigit = true) : isPySpace c = false := by
  by_cases e1 : c = ' '
  · exact absurd h (by rw [e1]; decide)
  by_cases e2 : c = '\t'
  · exact absurd h (by rw [e2]; decide)
  by_cases e3 : c = '\n'
  · exact absurd h (by rw [e3]; decide)
  by_cases e4 : c = '\r'
  · exact absurd h (by rw [e4]; decide)
  by_cases e5 : c = '\x0b'
  · exact absurd h (by rw [e5]; decide)
  by_cases e6 : c = '\x0c'
  · exact absurd h (by rw [e6]; decide)
  simp [isPySpace, e1, e2, e3, e4, e5, e6]

lemma dropWhile_no_space (cs : List Char)
    (h : ∀ c ∈ cs, isPySpace c = false) : cs.dropWhile isPySpace = cs := by
  cases cs with
  | nil => rfl
  | cons a t => simp [List.dropWhile_cons, h a (List.mem_cons_self a t)]

lemma strip_of_no_space (cs : List Char)
    (h : ∀ c ∈ cs, isPySpace c = false) : pyStripChars cs = cs := by
  rw [pyStripChars, dropWhile_no_space cs h,
    dropWhile_no_space cs.reverse (fun c hc => h c (List.mem_reverse.1 hc)),
    List.reverse_reverse]

lemma digitsCore_cons (acc : Nat) (c : Char) (cs : List Char) :
    digitsCore acc (c :: cs)
      = if c = '_' then
          (match cs with
           | [] => none
           | c2 :: cs2 =>
             if c2.isDigit then digitsCore (acc * 10 + (c2.toNat - 48)) cs2
             else none)
        else if c.isDigit then digitsCore (acc * 10 + (c.toNat - 48)) cs
        else none := by
  rw [digitsCore.eq_def]

lemma digitsCore_all_digits :
    ∀ (cs : List Char) (acc : Nat), (∀ c ∈ cs, c.isDigit = true) →
      ∃ n, digitsCore acc cs = some n := by
  intro cs
  induction cs with
  | nil => exact fun acc _ => ⟨acc, rfl⟩
  | cons c cs ih =>
    intro acc h
    have hc : c.isDigit = true := h c (List.mem_cons_self c cs)
    have hne : c ≠ '_' := by rintro rfl; exact absurd hc (by decide)
    rw [digitsCore_cons, if_neg hne, if_pos hc]
    exact ih _ (fun x hx => h x (List.mem_cons_of_mem c hx))

lemma digitsVal_all_digits (c : Char) (cs : List Char)
    (h : ∀ x ∈ c :: cs, x.isDigit = true) :
    ∃ n, digitsVal (c :: cs) = some n := by
  rw [digitsVal, if_pos (h c (List.mem_cons_self c cs))]
  exact digitsCore_all_digits cs _ (fun x hx => h x (List.mem_cons_of_mem c hx))

/-- A nonempty digit string parses, and a leading `+` does not change the
result. -/
lemma pyIntChars_plus (c : Char) (cs : List Char)
    (hd : ∀ x ∈ c :: cs, x.isDigit = true) :
    pyIntChars ('+' :: c :: cs) = pyIntChars (c :: cs)
      ∧ (pyIntChars (c :: cs)).isSome = true := by
  have hns : ∀ x ∈ c :: cs, isPySpace x = false :=
    fun x hx => digit_not_space x (hd x hx)
  have hns2 : ∀ x ∈ '+' :: c :: cs, isPySpace x = false := by
    intro x hx
    rcases List.mem_cons.1 hx with rfl | hx
    · decide
    · exact hns x hx
  have hc : c.isDigit = true := hd c (List.mem_cons_self c cs)
  have hcp : c ≠ '+' := by rintro rfl; exact absurd hc (by decide)
  have hcm : c ≠ '-' := by rintro rfl; exact absurd hc (by decide)
  obtain ⟨n, hn⟩ := digitsVal_all_digits c cs hd
  have e1 : pyIntChars ('+' :: c :: cs)
      = (digitsVal (c :: cs)).map (fun n => (n : Int)) := by
    rw [pyIntChars, strip_of_no_space _ hns2, pySigned, if_pos rfl]
  have e2 : pyIntChars (c :: cs)
      = (digitsVal (c :: cs)).map (fun n => (n : Int)) := by
    rw [pyIntChars, strip_of_no_space _ hns, pySigned, if_neg hcp, if_neg hcm]
  exact ⟨e1.trans e2.symm, by rw [e2, hn]; rfl⟩

/-- Any error the loop produces is a `ValueError`, and then some line of the
input really is unparseable. -/
lemma pyLoop_error (lines : List String) :
    ∀ (fuel : Nat) (s : Int) (seen : Finset Int) (i : Nat) (e : PyError),
      pyLoop lines s seen i fuel = some (.error e) →
      e = PyError.valueError ∧ ∃ x ∈ lines, pyInt x = none := by
  intro fuel
  induction fuel with
  | zero => intro s seen i e h; simp [pyLoop] at h
  | succ fuel ih =>
    intro s seen i e h
    rw [pyLoop] at h
    by_cases hl : lines = []
    · rw [if_pos hl] at h; simp at h
    · rw [if_neg hl] at h
      have hlen : 0 < lines.length := List.length_pos.2 hl
      have hi : i % lines.length < lines.length := Nat.mod_lt i hlen
      split at h
      · rename_i hp
        simp at h
        refine ⟨h.symm, lines.getD (i % lines.length) "", ?_, hp⟩
        rw [List.getD_eq_getElem _ _ hi]
        exact List.getElem_mem hi
      · rename_i n hp
        split at h
        · simp at h
        · exact ih _ _ _ _ h

end Day1Part2

deriving instance DecidableEq for Except

namespace Day1Part2

/-! ### Claims -/

/-- Claim C1: for every non-empty input list, `find_repeated_frequency`
returns the first cumulative-sum value (starting from 0, adding elements
cyclically, with 0 seen before any addition) that already occurred earlier:
if `r` is the least step index whose cumulative sum repeats an earlier one,
then with sufficient fuel the function returns `csum l r`. -/
theorem claim1_returns_first_repeated_sum (l : List Int) (r fuel : Nat)
    (hne : l ≠ []) (hrep : repeatAt l r) (hmin : ∀ j < r, ¬ repeatAt l j)
    (hfuel : r < fuel) :
    find_repeated_frequency l fuel = some (some (csum l r)) :=
  find_first l r fuel hne hrep hmin hfuel

theorem claim1_witness :
    find_repeated_frequency [1, -1] 3 = some (some (csum [1, -1] 2)) :=
  claim1_returns_first_repeated_sum [1, -1] 2 3 (by decide) (by decide)
    (by decide) (by decide)

/-- Claim C2 counterexample: on the empty input sequence the function does
not stall; the `for` body never runs and it returns (Python `None`) after a
single iteration's worth of fuel. -/
theorem claim2_cex_empty_input_returns :
    find_repeated_frequency [] 1 = some none
      ∧ find_repeated_frequency [] 1 ≠ none := by decide

/-- Claim C2 (amended): on the empty input sequence the cyclic draw yields
no value, the loop body never executes, and `find_repeated_frequency`
returns immediately with no repeated sum (Python `None`) — not an infinite
stall. -/
theorem claim2_empty_input_returns_none (fuel : Nat) (h : 1 ≤ fuel) :
    find_repeated_frequency [] fuel = some none := by
  obtain ⟨f, rfl⟩ : ∃ f, fuel = f + 1 := ⟨fuel - 1, by omega⟩
  rfl

theorem claim2_witness : 1 ≤ 1 ∧ find_repeated_frequency [] 1 = some none :=
  ⟨Nat.le_refl 1, claim2_empty_input_returns_none 1 (Nat.le_refl 1)⟩

/-- Claim C3: loop invariant.  While no repeat has occurred before step `k`:
the loop reaches step `k` exactly in the state whose `sum` is `csum l k` and
whose `seen` is `seenSet l k`; `seen` contains exactly the cumulative sums
examined before the current one; it grows monotonically; and the loop
returns the first time the current sum is already present. -/
theorem claim3_loop_invariant (l : List Int) (k : Nat) (hne : l ≠ [])
    (hmin : ∀ j < k, ¬ repeatAt l j) :
    (∀ fuel, loopRun l 0 ∅ 0 (k + fuel)
        = loopRun l (csum l k) (seenSet l k) k fuel)
    ∧ (∀ a, a ∈ seenSet l k ↔ ∃ j < k, csum l j = a)
    ∧ seenSet l k ⊆ seenSet l (k + 1)
    ∧ (repeatAt l k → ∀ fuel,
        loopRun l (csum l k) (seenSet l k) k (fuel + 1)
          = some (some (csum l k))) :=
  ⟨fun fuel => loopRun_shift l hne k hmin fuel,
   fun a => mem_seenSet l k a,
   seenSet_mono l k,
   fun hrep fuel => loopRun_found l hne k fuel hrep⟩

theorem claim3_witness :
    loopRun [1, -1] (csum [1, -1] 2) (seenSet [1, -1] 2) 2 1
      = some (some (csum [1, -1] 2)) :=
  (claim3_loop_invariant [1, -1] 2 (by decide) (by decide)).2.2.2 (by decide) 0

/-- Claim C4: if the first repeated cumulative sum appears after consuming
only the first `k` elements (`k` less than the list's length), then running
on just the length-`k` first-pass segment `l.take k` gives the same result
as running on `l`, and fuel `r + 1` (which draws only elements of that
segment) suffices for both. -/
theorem claim4_prefix_correct (l : List Int) (k r : Nat) (hne : l ≠ [])
    (hk : k < l.length) (hrk : r ≤ k) (hrep : repeatAt l r)
    (hmin : ∀ j < r, ¬ repeatAt l j) :
    find_repeated_frequency (l.take k) (r + 1) = some (some (csum l r))
      ∧ find_repeated_frequency l (r + 1) = some (some (csum l r)) := by
  have hkl : k ≤ l.length := le_of_lt hk
  have hr1 : 1 ≤ r := by
    obtain ⟨j, hj, _⟩ := hrep
    omega
  have htne : l.take k ≠ [] := by
    intro h
    have hlen : (l.take k).length = 0 := by rw [h]; rfl
    rw [List.length_take] at hlen
    omega
  have hrept : repeatAt (l.take k) r := (repeatAt_take l k r hkl hrk).2 hrep
  have hmint : ∀ j < r, ¬ repeatAt (l.take k) j := fun j hj hcon =>
    hmin j hj ((repeatAt_take l k j hkl (by omega)).1 hcon)
  have h1 := find_first (l.take k) r (r + 1) htne hrept hmint (Nat.lt_succ_self r)
  rw [csum_take l k hkl r hrk] at h1
  exact ⟨h1, find_first l r (r + 1) hne hrep hmin (Nat.lt_succ_self r)⟩

theorem claim4_witness :
    find_repeated_frequency ([1, -1, 5].take 2) 3 = some (some (csum [1, -1, 5] 2))
      ∧ find_repeated_frequency [1, -1, 5] 3 = some (some (csum [1, -1, 5] 2)) :=
  claim4_prefix_correct [1, -1, 5] 2 2 (by decide) (by decide) (by decide)
    (by decide) (by decide)

/-- Claim C5 counterexample: a non-empty all-zero input is not a
non-terminating worst case — the computation terminates within two
iterations and returns `0`. -/
theorem claim5_cex_all_zero_terminates :
    find_repeated_frequency [0] 2 = some (some 0)
      ∧ find_repeated_frequency [0] 2 ≠ none := by decide

/-- Claim C5 (amended): a non-empty all-zero input terminates immediately
(the sum 0 repeats at the second membership check, so the function returns
`0` within two iterations); unbounded computation occurs instead for inputs
whose cyclic partial sums never repeat, such as `[1]`, on which no amount
of fuel produces a result. -/
theorem claim5_all_zero_fast_but_ones_diverge :
    (∀ l : List Int, l ≠ [] → (∀ x ∈ l, x = 0) →
        find_repeated_frequency l 2 = some (some 0))
    ∧ (∀ fuel, find_repeated_frequency [1] fuel = none) := by
  constructor
  · intro l hne hz
    have hcyc : cyc l 0 = 0 := by
      cases l with
      | nil => exact absurd rfl hne
      | cons a t => simpa [cyc] using hz a (List.mem_cons_self a t)
    have h0 : csum l 1 = 0 := by
      rw [show (1 : Nat) = 0 + 1 from rfl, csum, csum, hcyc]
      ring
    have hrep : repeatAt l 1 := ⟨0, Nat.zero_lt_one, by rw [h0]; rfl⟩
    have hmin : ∀ j < 1, ¬ repeatAt l j := by
      rintro j hj ⟨i, hi, _⟩
      omega
    have h := find_first l 1 2 hne hrep hmin (by omega)
    rwa [h0] at h
  · exact find_one_none

theorem claim5_witness :
    find_repeated_frequency [0, 0] 2 = some (some 0)
      ∧ find_repeated_frequency [1] 5 = none :=
  ⟨claim5_all_zero_fast_but_ones_diverge.1 [0, 0] (by decide) (by decide),
   claim5_all_zero_fast_but_ones_diverge.2 5⟩

/-- Claim C6 counterexample: the cumulative sums of `[+1, -2, +3, +1]` are
not `0, 1, -1, 2, 3, 1, 2` as claimed (the sixth sum is `4`, not `1`). -/
theorem claim6_cex_listed_sums_wrong :
    (List.range 7).map (csum [1, -2, 3, 1]) ≠ [0, 1, -1, 2, 3, 1, 2] := by
  decide

/-- Claim C6 (amended): for input `[+1, -2, +3, +1]` the function returns
`2`; the cumulative sums are `0, 1, -1, 2, 3, 4, 2`, and step 6 is the
first whose sum repeats an earlier one. -/
theorem claim6_example_returns_two :
    find_repeated_frequency [1, -2, 3, 1] 7 = some (some 2)
      ∧ (List.range 7).map (csum [1, -2, 3, 1]) = [0, 1, -1, 2, 3, 4, 2]
      ∧ repeatAt [1, -2, 3, 1] 6
      ∧ (∀ j < 6, ¬ repeatAt [1, -2, 3, 1] j) := by
  decide

/-- Claim C7: for input `[+1, -1]` the function returns `0`; the cumulative
sums are `0, 1, 0`, the repeat is detected at step 2, and the repeated value
is the initial `0` itself, seen before any addition. -/
theorem claim7_example_returns_zero :
    find_repeated_frequency [1, -1] 3 = some (some 0)
      ∧ (List.range 3).map (csum [1, -1]) = [0, 1, 0]
      ∧ repeatAt [1, -1] 2
      ∧ (∀ j < 2, ¬ repeatAt [1, -1] j)
      ∧ csum [1, -1] 2 = csum [1, -1] 0 := by
  decide

/-- Claim C9: determinism — the result is a pure function of the input
sequence; any two runs that produce a result (whatever fuel each was given)
produce the same result. -/
theorem claim9_deterministic (l : List Int) (fuelA fuelB : Nat)
    (rA rB : Option Int)
    (hA : find_repeated_frequency l fuelA = some rA)
    (hB : find_repeated_frequency l fuelB = some rB) : rA = rB := by
  rcases Nat.le_total fuelA fuelB with h | h
  · exact Option.some.inj
      ((loopRun_mono l fuelA fuelB 0 ∅ 0 rA h hA).symm.trans hB)
  · exact (Option.some.inj
      ((loopRun_mono l fuelB fuelA 0 ∅ 0 rB h hB).symm.trans hA)).symm

theorem claim9_witness :
    find_repeated_frequency [1, -1] 3 = some (some 0)
      ∧ find_repeated_frequency [1, -1] 4 = some (some 0)
      ∧ ((some 0 : Option Int) = some 0) :=
  ⟨by decide, by decide,
   claim9_deterministic [1, -1] 3 4 (some 0) (some 0) (by decide) (by decide)⟩

/-- Claim C8 counterexample: `map(int, open('input'))` is lazy, so a
malformed line that the loop never draws raises nothing: with lines
`["0", "+1", "abc"]` the unparseable `"abc"` is present, yet the program
succeeds and prints `0` (the repeat is found before that line is drawn). -/
theorem claim8_cex_unread_bad_line_no_failure :
    pyInt "abc" = none
      ∧ ("abc" : String) ∈ (["0", "+1", "abc"] : List String)
      ∧ pyProgram 2 (some ["0", "+1", "abc"]) = some (Except.ok "0") := by
  decide

/-- Claim C8 (amended): the program fails on an unreadable input source with
an I/O error; any failure on a readable input is a parse error and implies
some line is not parseable as a signed integer (the converse does not hold:
a malformed line is fatal only if the loop actually draws it before
returning); and a line of decimal digits optionally prefixed with `+`
parses successfully. -/
theorem claim8_error_conditions :
    (∀ fuel, pyProgram fuel none = some (Except.error PyError.ioError))
    ∧ (∀ (lines : List String) (fuel : Nat) (e : PyError),
        pyProgram fuel (some lines) = some (Except.error e) →
        e = PyError.valueError ∧ ∃ x ∈ lines, pyInt x = none)
    ∧ (∀ (c : Char) (cs : List Char), (∀ x ∈ c :: cs, x.isDigit = true) →
        pyInt (String.mk ('+' :: c :: cs)) = pyInt (String.mk (c :: cs))
          ∧ (pyInt (String.mk (c :: cs))).isSome = true) := by
  refine ⟨fun fuel => rfl, ?_, ?_⟩
  · intro lines fuel e h
    rw [pyProgram] at h
    obtain ⟨r, hr, hf⟩ := Option.map_eq_some'.1 h
    cases r with
    | ok a => simp [Except.map] at hf
    | error eBad =>
      have he : eBad = e := by simpa [Except.map] using hf
      subst he
      exact pyLoop_error lines fuel 0 ∅ 0 eBad hr
  · intro c cs hd
    exact pyIntChars_plus c cs hd

theorem claim8_witness :
    pyProgram 0 none = some (Except.error PyError.ioError)
      ∧ (PyError.valueError = PyError.valueError
          ∧ ∃ x ∈ (["x"] : List String), pyInt x = none)
      ∧ (pyInt (String.mk ['+', '4', '2']) = pyInt (String.mk ['4', '2'])
          ∧ (pyInt (String.mk ['4', '2'])).isSome = true) :=
  ⟨claim8_error_conditions.1 0,
   claim8_error_conditions.2.1 ["x"] 1 PyError.valueError (by decide),
   claim8_error_conditions.2.2 '4' ['2'] (by decide)⟩

/-- Claim C10: on the empty input sequence the loop over the cycled
sequence yields no elements, so the function terminates immediately with
Python's implicit `None`, and the program prints `None` — it does not stall
forever. -/
theorem claim10_empty_input_prints_none (fuel : Nat) (h : 1 ≤ fuel) :
    find_repeated_frequency [] fuel = some none
      ∧ pyProgram fuel (some []) = some (Except.ok "None") := by
  obtain ⟨f, rfl⟩ : ∃ f, fuel = f + 1 := ⟨fuel - 1, by omega⟩
  exact ⟨rfl, rfl⟩

theorem claim10_witness :
    find_repeated_frequency [] 1 = some none
      ∧ pyProgram 1 (some []) = some (Except.ok "None") :=
  claim10_empty_input_prints_none 1 (Nat.le_refl 1)

end Day1Part2
